import Mathlib

/-!
Verification of the magnet-search DHT crawler against its design spec.

Go strings are modelled as byte lists (`List Nat`, each element < 256 where it
matters); Go's `int`/`int64` as `Int`; `time.Time` as an `Int` counting seconds
from Go's zero time instant (year 1), so `IsZero` is equality with 0 and
`time.Unix s` is `s + unixEpoch`. Library functions the source calls
(`strings.Contains`, `strings.HasSuffix`, `strings.ToLower` on its ASCII
fragment, `strconv.Itoa`, `sort.Strings`, `crypto/sha1`, `encoding/hex`) are
modelled byte-for-byte next to the code that uses them.
-/

/-- A Go string as its byte sequence. -/
abbrev GoStr := List Nat

/-- Byte list of a Lean string literal (ASCII literals only are used). -/
def gls (s : String) : GoStr := s.toList.map Char.toNat

/-- Go byte/string comparison `s < t || s == t` as `sort.Strings` orders keys:
lexicographic on raw bytes. -/
def byteLe : GoStr → GoStr → Bool
  | [], _ => true
  | _ :: _, [] => false
  | a :: as, b :: bs =>
    if a < b then true
    else if b < a then false
    else byteLe as bs

theorem byteLe_refl (a : GoStr) : byteLe a a = true := by
  induction a with
  | nil => rfl
  | cons x xs ih => simp [byteLe, ih]

theorem byteLe_total (a b : GoStr) : byteLe a b = true ∨ byteLe b a = true := by
  induction a generalizing b with
  | nil => left; rfl
  | cons x xs ih =>
    cases b with
    | nil => right; rfl
    | cons y ys =>
      rcases Nat.lt_trichotomy x y with h | h | h
      · left; simp [byteLe, h]
      · subst h
        rcases ih ys with h' | h'
        · left; simp [byteLe, h']
        · right; simp [byteLe, h']
      · right; simp [byteLe, h]

theorem byteLe_antisymm {a b : GoStr} (hab : byteLe a b = true)
    (hba : byteLe b a = true) : a = b := by
  induction a generalizing b with
  | nil =>
    cases b with
    | nil => rfl
    | cons y ys => simp [byteLe] at hba
  | cons x xs ih =>
    cases b with
    | nil => simp [byteLe] at hab
    | cons y ys =>
      rcases Nat.lt_trichotomy x y with h | h | h
      · simp [byteLe, h, Nat.not_lt.mpr (Nat.le_of_lt h)] at hba
      · subst h
        simp only [byteLe, lt_irrefl, if_false] at hab hba
        rw [ih hab hba]
      · simp [byteLe, h, Nat.not_lt.mpr (Nat.le_of_lt h)] at hab

theorem byteLe_trans {a b c : GoStr} (hab : byteLe a b = true)
    (hbc : byteLe b c = true) : byteLe a c = true := by
  induction a generalizing b c with
  | nil => rfl
  | cons x xs ih =>
    cases b with
    | nil => simp [byteLe] at hab
    | cons y ys =>
      cases c with
      | nil => simp [byteLe] at hbc
      | cons z zs =>
        rcases Nat.lt_trichotomy x y with h₁ | h₁ | h₁
        · rcases Nat.lt_trichotomy y z with h₂ | h₂ | h₂
          · simp [byteLe, Nat.lt_trans h₁ h₂]
          · subst h₂; simp [byteLe, h₁]
          · simp [byteLe, h₂, Nat.not_lt.mpr (Nat.le_of_lt h₂)] at hbc
        · subst h₁
          rcases Nat.lt_trichotomy x z with h₂ | h₂ | h₂
          · simp [byteLe, h₂]
          · subst h₂
            simp only [byteLe, lt_irrefl, if_false] at hab hbc ⊢
            exact ih hab hbc
          · simp [byteLe, h₂, Nat.not_lt.mpr (Nat.le_of_lt h₂)] at hbc
        · simp [byteLe, h₁, Nat.not_lt.mpr (Nat.le_of_lt h₁)] at hab

/-- `strconv.Itoa` / `strconv.FormatInt` digit loop on a natural number, with
explicit fuel (the value itself bounds the number of divisions). Produces the
ASCII decimal digits most-significant first. -/
def natDigitsGo : Nat → Nat → List Nat → List Nat
  | 0, _, acc => acc
  | fuel + 1, n, acc =>
    if n < 10 then (48 + n) :: acc
    else natDigitsGo fuel (n / 10) ((48 + n % 10) :: acc)

/-- ASCII decimal representation of a natural number, as `strconv.Itoa` emits
it: no padding, no leading zero (`0` is "0"). -/
def natDigits (n : Nat) : List Nat := natDigitsGo (n + 1) n []

/-- ASCII decimal representation of an integer (`strconv.FormatInt`): a `-`
sign for negatives, then the digits of the magnitude. -/
def intDigits (n : Int) : List Nat :=
  if n < 0 then 45 :: natDigits (Int.toNat (-n)) else natDigits (Int.toNat n)

theorem natDigitsGo_head (fuel : Nat) {n : Nat} (acc : List Nat) (h0 : 0 < n)
    (hfuel : n ≤ fuel) :
    ∃ d rest, 0 < d ∧ d < 10 ∧ natDigitsGo fuel n acc = (48 + d) :: rest := by
  induction fuel generalizing n acc with
  | zero => omega
  | succ f ih =>
    by_cases h : n < 10
    · exact ⟨n, acc, h0, h, by simp [natDigitsGo, h]⟩
    · have h10 : 10 ≤ n := Nat.le_of_not_lt h
      have hq : 0 < n / 10 := Nat.div_pos h10 (by norm_num)
      have hlt : n / 10 < n := Nat.div_lt_self h0 (by norm_num)
      obtain ⟨d, rest, hd0, hd10, heq⟩ :=
        ih ((48 + n % 10) :: acc) hq (by omega)
      exact ⟨d, rest, hd0, hd10, by simp [natDigitsGo, h, heq]⟩

/-- For a positive number the decimal emitted by the `strconv` model never
starts with the character `0` (0x30): integers are encoded without padding. -/
theorem natDigits_no_leading_zero {n : Nat} (h : 0 < n) :
    ∀ r, natDigits n ≠ 48 :: r := by
  intro r hr
  obtain ⟨d, rest, hd0, _, heq⟩ := natDigitsGo_head (n + 1) [] h (by omega)
  rw [natDigits, heq] at hr
  injection hr with h1 h2
  omega

theorem natDigits_zero : natDigits 0 = [48] := rfl

/-! ## Bencode canonical encoder (`calculateInfoHash` / `writeBencodedDict`) -/

/-- A value the canonical encoder of the crawler supports
(`writeBencodedValue`'s type switch): Go `string`, `int`/`int64` (both are one
`Int` here), `[]interface{}`, and `map[string]interface{}`. A Go map value is
modelled as its list of key/value pairs in some iteration order; Go map keys
are distinct, which the theorems take as a hypothesis where it matters. -/
inductive BVal where
  | str : GoStr → BVal
  | int : Int → BVal
  | list : List BVal → BVal
  | dict : List (GoStr × BVal) → BVal

abbrev BPair := GoStr × BVal

def insertPair (p : BPair) : List BPair → List BPair
  | [] => [p]
  | q :: qs => if byteLe p.1 q.1 then p :: q :: qs else q :: insertPair p qs

/-- `sort.Strings(keys)` followed by the per-key map lookups of
`writeBencodedDict`, expressed as sorting the pair list by key: with distinct
keys this is the same pair sequence, and insertion sort yields exactly the
ascending order `sort.Strings` guarantees. -/
def sortPairs : List BPair → List BPair
  | [] => []
  | p :: ps => insertPair p (sortPairs ps)

mutual
/-- The key-sorting the Go encoder performs at the head of every dictionary
(`writeBencodedDict` lines 33-38), applied recursively to the whole value. -/
def canonVal : BVal → BVal
  | .str s => .str s
  | .int n => .int n
  | .list l => .list (canonList l)
  | .dict d => .dict (sortPairs (canonPairs d))

def canonList : List BVal → List BVal
  | [] => []
  | v :: vs => canonVal v :: canonList vs

def canonPairs : List BPair → List BPair
  | [] => []
  | (k, v) :: ps => (k, canonVal v) :: canonPairs ps
end

mutual
/-- The byte-emission part of `writeBencodedValue`: strings as
`<len>:<bytes>`, integers as `i<decimal>e`, lists as `l…e`, dictionaries as
`d<key><value>…e` in the (already sorted) pair order. 100, 101, 105, 108 and
58 are the bytes of d, e, i, l and the colon. -/
def emitVal : BVal → List Nat
  | .str s => natDigits s.length ++ 58 :: s
  | .int n => 105 :: (intDigits n ++ [101])
  | .list l => 108 :: (emitList l ++ [101])
  | .dict d => 100 :: (emitPairs d ++ [101])

def emitList : List BVal → List Nat
  | [] => []
  | v :: vs => emitVal v ++ emitList vs

def emitPairs : List BPair → List Nat
  | [] => []
  | (k, v) :: ps => (natDigits k.length ++ 58 :: k) ++ (emitVal v ++ emitPairs ps)
end

/-- `writeBencodedValue`: sort every dictionary's keys, then emit. -/
def writeBencodedValue (v : BVal) : List Nat := emitVal (canonVal v)

/-- `writeBencodedDict` (part_000 lines 27-67). -/
def writeBencodedDict (d : List BPair) : List Nat := emitVal (canonVal (.dict d))

/-- Key order of `insertPair`: membership. -/
theorem mem_insertPair {a p : BPair} {l : List BPair} :
    a ∈ insertPair p l ↔ a = p ∨ a ∈ l := by
  induction l with
  | nil => simp [insertPair]
  | cons q qs ih =>
    by_cases h : byteLe p.1 q.1
    · simp [insertPair, h]
    · have h' : byteLe p.1 q.1 = false := by simpa using h
      simp [insertPair, h', ih]
      tauto

theorem insertPair_perm (p : BPair) (l : List BPair) :
    List.Perm (insertPair p l) (p :: l) := by
  induction l with
  | nil => rfl
  | cons q qs ih =>
    by_cases h : byteLe p.1 q.1
    · simp [insertPair, h]
    · simp only [insertPair, h, if_false]
      exact (ih.cons q).trans (List.Perm.swap p q qs)

theorem sortPairs_perm (l : List BPair) : List.Perm (sortPairs l) l := by
  induction l with
  | nil => rfl
  | cons p ps ih => exact (insertPair_perm p (sortPairs ps)).trans (ih.cons p)

/-- Keys come out of `sortPairs` in ascending raw-byte order. -/
theorem pairwise_insertPair {p : BPair} {l : List BPair}
    (h : List.Pairwise (fun a b : BPair => byteLe a.1 b.1 = true) l) :
    List.Pairwise (fun a b : BPair => byteLe a.1 b.1 = true) (insertPair p l) := by
  induction l with
  | nil => simp [insertPair]
  | cons q qs ih =>
    rcases List.pairwise_cons.mp h with ⟨hq, hqs⟩
    by_cases hle : byteLe p.1 q.1
    · rw [show insertPair p (q :: qs) = p :: q :: qs from by simp [insertPair, hle]]
      refine List.pairwise_cons.mpr ⟨?_, h⟩
      intro b hb
      rcases List.mem_cons.mp hb with rfl | hb
      · exact hle
      · exact byteLe_trans hle (hq b hb)
    · have hqp : byteLe q.1 p.1 = true := by
        rcases byteLe_total p.1 q.1 with h' | h'
        · exact absurd h' hle
        · exact h'
      simp only [insertPair, hle, if_false]
      refine List.pairwise_cons.mpr ⟨?_, ih hqs⟩
      intro b hb
      rcases mem_insertPair.mp hb with rfl | hb
      · exact hqp
      · exact hq b hb

theorem sortPairs_sorted (l : List BPair) :
    List.Pairwise (fun a b : BPair => byteLe a.1 b.1 = true) (sortPairs l) := by
  induction l with
  | nil => exact List.Pairwise.nil
  | cons p ps ih => exact pairwise_insertPair ih

theorem canonPairs_eq_map (l : List BPair) :
    canonPairs l = l.map (fun p => (p.1, canonVal p.2)) := by
  induction l with
  | nil => rfl
  | cons p ps ih => cases p; simp [canonPairs, ih]

theorem map_fst_canonPairs (l : List BPair) :
    (canonPairs l).map Prod.fst = l.map Prod.fst := by
  induction l with
  | nil => rfl
  | cons p ps ih => cases p; simp [canonPairs, ih]

/-- With distinct keys, sorting is independent of the pair order. -/
theorem sortPairs_eq_of_perm {l₁ l₂ : List BPair}
    (hnd : (l₁.map Prod.fst).Nodup) (hp : List.Perm l₁ l₂) :
    sortPairs l₁ = sortPairs l₂ := by
  have hperm : List.Perm (sortPairs l₁) (sortPairs l₂) :=
    (sortPairs_perm l₁).trans (hp.trans (sortPairs_perm l₂).symm)
  haveI : IsAntisymm BPair (fun a b => byteLe a.1 b.1 = true ∧ a.1 ≠ b.1) :=
    ⟨fun a b h1 h2 => absurd (byteLe_antisymm h1.1 h2.1) h1.2⟩
  have hne₁ : List.Pairwise (fun a b : BPair => a.1 ≠ b.1) l₁ :=
    List.pairwise_map.mp hnd
  have hinv : ∀ l : List BPair, List.Pairwise (fun a b : BPair => a.1 ≠ b.1) l →
      List.Sorted (fun a b => byteLe a.1 b.1 = true ∧ a.1 ≠ b.1) (sortPairs l) := by
    intro l hl
    have hne : List.Pairwise (fun a b : BPair => a.1 ≠ b.1) (sortPairs l) :=
      ((sortPairs_perm l).pairwise_iff (fun h => Ne.symm h)).mpr hl
    exact (sortPairs_sorted l).and hne
  exact List.eq_of_perm_of_sorted hperm (hinv l₁ hne₁)
    (hinv l₂ ((hp.pairwise_iff (fun h => Ne.symm h)).mp hne₁))

/-- C1. The canonical bencode encoder emits dictionary keys sorted ascending
by raw-byte lexical order, independently of the map's iteration order; a
string is `<len>:<bytes>` (58 is the colon); an integer is `i<decimal>e`
(bytes 105, 101) with no leading-zero padding; and the dictionary
`{"b": 2, "a": "x"}` encodes to exactly the bytes of `d1:a1:x1:bi2ee`. -/
theorem C1_bencode_canonical :
    (∀ l : List BPair,
      List.Pairwise (fun a b : BPair => byteLe a.1 b.1 = true) (sortPairs l))
    ∧ (∀ l₁ l₂ : List BPair, (l₁.map Prod.fst).Nodup → List.Perm l₁ l₂ →
        writeBencodedDict l₁ = writeBencodedDict l₂)
    ∧ (∀ s : GoStr, writeBencodedValue (.str s) = natDigits s.length ++ 58 :: s)
    ∧ (∀ n : Int, writeBencodedValue (.int n) = 105 :: (intDigits n ++ [101]))
    ∧ (∀ m : Nat, 0 < m → ∀ r, intDigits (Int.ofNat m) ≠ 48 :: r)
    ∧ writeBencodedDict [(gls "b", .int 2), (gls "a", .str (gls "x"))]
        = gls "d1:a1:x1:bi2ee" := by
  refine ⟨sortPairs_sorted, ?_, fun s => rfl, fun n => rfl, ?_, by decide⟩
  · intro l₁ l₂ hnd hp
    have hp' : List.Perm (canonPairs l₁) (canonPairs l₂) := by
      rw [canonPairs_eq_map, canonPairs_eq_map]
      exact hp.map _
    have hnd' : ((canonPairs l₁).map Prod.fst).Nodup := by
      rw [map_fst_canonPairs]; exact hnd
    show emitVal (.dict (sortPairs (canonPairs l₁)))
        = emitVal (.dict (sortPairs (canonPairs l₂)))
    rw [sortPairs_eq_of_perm hnd' hp']
  · intro m hm r
    have : intDigits (Int.ofNat m) = natDigits m := by
      simp [intDigits, Int.toNat_ofNat]
    rw [this]
    exact natDigits_no_leading_zero hm r

/-! ## SHA-1 (`crypto/sha1`, FIPS 180-1) and lowercase hex (`encoding/hex`),
as `calculateInfoHash` composes them. Words are `Nat` reduced mod 2^32. -/

def w32 (n : Nat) : Nat := n % 4294967296

def rotl (s x : Nat) : Nat := ((x <<< s) ||| (x >>> (32 - s))) &&& 4294967295

def sha1F (i b c d : Nat) : Nat :=
  if i < 20 then (b &&& c) ||| ((4294967295 ^^^ b) &&& d)
  else if i < 40 then (b ^^^ c) ^^^ d
  else if i < 60 then ((b &&& c) ||| (b &&& d)) ||| (c &&& d)
  else (b ^^^ c) ^^^ d

def sha1K (i : Nat) : Nat :=
  if i < 20 then 1518500249
  else if i < 40 then 1859775393
  else if i < 60 then 2400959708
  else 3395469782

/-- Pack bytes into big-endian 32-bit words. -/
def bytesToWords : List Nat → List Nat
  | a :: b :: c :: d :: rest =>
    (((a <<< 24) ||| (b <<< 16)) ||| ((c <<< 8) ||| d)) :: bytesToWords rest
  | _ => []

/-- Message-schedule extension `w[i] = rotl1 (w[i-3]^w[i-8]^w[i-14]^w[i-16])`:
`recent` holds the last 16 words newest-first, `acc` the whole schedule
newest-first. -/
def sha1Extend : Nat → List Nat → List Nat → List Nat
  | 0, _, acc => acc.reverse
  | n + 1, recent, acc =>
    let nw := rotl 1 (((recent.getD 2 0) ^^^ (recent.getD 7 0))
      ^^^ ((recent.getD 13 0) ^^^ (recent.getD 15 0)))
    sha1Extend n (nw :: recent.take 15) (nw :: acc)

def sha1Rounds : List Nat → Nat → Nat × Nat × Nat × Nat × Nat → Nat × Nat × Nat × Nat × Nat
  | [], _, st => st
  | wi :: rest, i, (a, b, c, d, e) =>
    sha1Rounds rest (i + 1)
      (w32 (rotl 5 a + sha1F i b c d + e + sha1K i + wi), a, rotl 30 b, c, d)

def sha1Compress (h : Nat × Nat × Nat × Nat × Nat) (chunk : List Nat) :
    Nat × Nat × Nat × Nat × Nat :=
  let ws16 := (bytesToWords chunk).reverse
  let ws := sha1Extend 64 ws16 ws16
  let r := sha1Rounds ws 0 h
  (w32 (h.1 + r.1), w32 (h.2.1 + r.2.1), w32 (h.2.2.1 + r.2.2.1),
    w32 (h.2.2.2.1 + r.2.2.2.1), w32 (h.2.2.2.2 + r.2.2.2.2))

/-- Big-endian 64-bit byte encoding of the message bit length. -/
def be64 (n : Nat) : List Nat :=
  [(n >>> 56) &&& 255, (n >>> 48) &&& 255, (n >>> 40) &&& 255, (n >>> 32) &&& 255,
    (n >>> 24) &&& 255, (n >>> 16) &&& 255, (n >>> 8) &&& 255, n &&& 255]

/-- Append 0x80, zero bytes to 56 mod 64, and the bit length. -/
def sha1Pad (msg : List Nat) : List Nat :=
  msg ++ 128 :: (List.replicate ((119 - msg.length % 64) % 64) 0 ++ be64 (8 * msg.length))

def sha1Chunks : Nat → Nat × Nat × Nat × Nat × Nat → List Nat → Nat × Nat × Nat × Nat × Nat
  | 0, h, _ => h
  | fuel + 1, h, msg =>
    match msg with
    | [] => h
    | _ :: _ => sha1Chunks fuel (sha1Compress h (msg.take 64)) (msg.drop 64)

/-- Big-endian bytes of one 32-bit word of the digest. -/
def w2b (w : Nat) : List Nat :=
  [(w >>> 24) &&& 255, (w >>> 16) &&& 255, (w >>> 8) &&& 255, w &&& 255]

/-- `sha1.Sum`: 20 digest bytes. -/
def sha1 (msg : List Nat) : List Nat :=
  let p := sha1Pad msg
  let h := sha1Chunks p.length (1732584193, 4023233417, 2562383102, 271733878, 3285377520) p
  w2b h.1 ++ (w2b h.2.1 ++ (w2b h.2.2.1 ++ (w2b h.2.2.2.1 ++ w2b h.2.2.2.2)))

/-- One lowercase hex digit byte, as `encoding/hex` writes it
(0-9 then a-f). -/
def hexDigit (n : Nat) : Nat := if n < 10 then 48 + n else 87 + n

/-- `hex.EncodeToString`. -/
def hexEncode (bs : List Nat) : GoStr :=
  bs.flatMap (fun b => [hexDigit (b / 16), hexDigit (b % 16)])

/-- `calculateInfoHash` (part_000 lines 14-24): canonical-bencode the info
dict, SHA-1 it, hex-encode the digest. -/
def calculateInfoHash (info : List BPair) : GoStr :=
  hexEncode (sha1 (writeBencodedDict info))

theorem and255_lt (x : Nat) : x &&& 255 < 256 :=
  lt_of_le_of_lt Nat.and_le_right (by norm_num)

theorem sha1_length (msg : List Nat) : (sha1 msg).length = 20 := by
  simp [sha1, w2b]

theorem w2b_lt (w : Nat) : ∀ b ∈ w2b w, b < 256 := by
  intro b hb
  simp only [w2b, List.mem_cons, List.not_mem_nil, or_false] at hb
  rcases hb with rfl | rfl | rfl | rfl <;> exact and255_lt _

theorem sha1_bytes_lt (msg : List Nat) : ∀ b ∈ sha1 msg, b < 256 := by
  intro b hb
  simp only [sha1, List.mem_append] at hb
  rcases hb with h | h | h | h | h <;> exact w2b_lt _ b h

theorem hexEncode_length (bs : List Nat) : (hexEncode bs).length = 2 * bs.length := by
  induction bs with
  | nil => rfl
  | cons b t ih => simp [hexEncode] at ih ⊢; omega

theorem hexDigit_mem : ∀ n : Nat, n < 16 → hexDigit n ∈ gls "0123456789abcdef" := by
  decide

theorem hexEncode_lower {bs : List Nat} (h : ∀ b ∈ bs, b < 256) :
    ∀ c ∈ hexEncode bs, c ∈ gls "0123456789abcdef" := by
  intro c hc
  rcases List.mem_flatMap.mp hc with ⟨b, hb, hcb⟩
  have hb256 : b < 256 := h b hb
  rcases List.mem_cons.mp hcb with rfl | hcb'
  · exact hexDigit_mem _ (Nat.div_lt_of_lt_mul (by omega))
  · rcases List.mem_cons.mp hcb' with rfl | hnil
    · exact hexDigit_mem _ (Nat.mod_lt _ (by norm_num))
    · simp at hnil

set_option maxRecDepth 10000 in
/-- C2. `calculateInfoHash info` is exactly the lowercase-hex encoding of the
SHA-1 digest of the canonical bencoding of `info`: it equals
`hexEncode (sha1 (writeBencodedDict info))`, is 40 characters long, uses only
the lowercase hex alphabet, and the SHA-1 model meets the standard `"abc"`
test vector `a9993e364706816aba3e25717850c26c9cd0d89d`. -/
theorem C2_infohash_is_sha1_of_canonical_bencode :
    (∀ info : List BPair,
      calculateInfoHash info = hexEncode (sha1 (writeBencodedDict info))
      ∧ (calculateInfoHash info).length = 40
      ∧ ∀ c ∈ calculateInfoHash info, c ∈ gls "0123456789abcdef")
    ∧ sha1 (gls "abc")
      = [169, 153, 62, 54, 71, 6, 129, 106, 186, 62, 37,
          113, 120, 80, 194, 108, 156, 208, 216, 157] := by
  refine ⟨fun info => ⟨rfl, ?_, ?_⟩, by decide⟩
  · rw [calculateInfoHash, hexEncode_length, sha1_length]
  · exact hexEncode_lower (sha1_bytes_lt _)

/-! ## KeywordFilter (internal/crawler/filter.go) -/

/-- `strings.ToLower` on the ASCII fragment (all keywords and blacklist
entries in the repository are ASCII): bytes 65-90 shift to 97-122, others
unchanged. -/
def toLowerByte (b : Nat) : Nat := if 65 ≤ b ∧ b ≤ 90 then b + 32 else b

def toLowerStr (s : GoStr) : GoStr := s.map toLowerByte

theorem toLowerByte_idem (b : Nat) : toLowerByte (toLowerByte b) = toLowerByte b := by
  unfold toLowerByte
  split
  · rename_i h
    rw [if_neg (by omega)]
  · rfl

theorem toLowerStr_idem (s : GoStr) : toLowerStr (toLowerStr s) = toLowerStr s := by
  simp [toLowerStr, List.map_map, Function.comp_def, toLowerByte_idem]

/-- Prefix test underlying `strings.Contains`. -/
def goHasPrefix : GoStr → GoStr → Bool
  | [], _ => true
  | _ :: _, [] => false
  | a :: as, b :: bs => a == b && goHasPrefix as bs

/-- `strings.Contains(s, sub)`: `sub` occurs contiguously in `s`. -/
def goContains : GoStr → GoStr → Bool
  | [], sub => sub.isEmpty
  | a :: t, sub => goHasPrefix sub (a :: t) || goContains t sub

theorem goHasPrefix_iff (sub s : GoStr) :
    goHasPrefix sub s = true ↔ sub <+: s := by
  induction sub generalizing s with
  | nil => simp [goHasPrefix]
  | cons a as ih =>
    cases s with
    | nil => simp [goHasPrefix]
    | cons b bs => simp [goHasPrefix, ih, List.cons_prefix_cons]

/-- `strings.Contains` agrees with list-infix occurrence. -/
theorem goContains_iff (s sub : GoStr) : goContains s sub = true ↔ sub <:+: s := by
  induction s with
  | nil => simp [goContains, List.isEmpty_iff]
  | cons a t ih =>
    simp [goContains, goHasPrefix_iff, ih, List.infix_cons_iff]

/-- `KeywordFilter`'s state (the RW mutex only guards concurrent access).
The Go `map[string]string` is an association list with overwrite-on-insert
and delete. -/
structure KeywordFilter where
  keywords : List GoStr
  blacklist : List GoStr
  categoryMap : List (GoStr × String)

/-- `NewKeywordFilter`. -/
def NewKeywordFilter : KeywordFilter := ⟨[], [], []⟩

def mapSet (k : GoStr) (v : String) : List (GoStr × String) → List (GoStr × String)
  | [] => [(k, v)]
  | (k', v') :: rest => if k' = k then (k, v) :: rest else (k', v') :: mapSet k v rest

def mapDel (k : GoStr) : List (GoStr × String) → List (GoStr × String)
  | [] => []
  | (k', v') :: rest => if k' = k then rest else (k', v') :: mapDel k rest

def mapGet (m : List (GoStr × String)) (k : GoStr) : Option String :=
  (m.find? (fun p => p.1 == k)).map Prod.snd

/-- `containsKeyword` (filter.go 94-101). -/
def containsKeyword (kf : KeywordFilter) (keyword : GoStr) : Bool :=
  kf.keywords.any (fun k => k == keyword)

/-- `containsBlacklistKeyword` (filter.go 104-111). -/
def containsBlacklistKeyword (kf : KeywordFilter) (keyword : GoStr) : Bool :=
  kf.blacklist.any (fun k => k == keyword)

/-- `AddKeyword` (filter.go 26-37): lowercase, skip when present, else append
and record the category when non-empty. -/
def AddKeyword (kf : KeywordFilter) (keyword : GoStr) (category : String) : KeywordFilter :=
  let kw := toLowerStr keyword
  if containsKeyword kf kw then kf
  else
    { kf with
      keywords := kf.keywords ++ [kw]
      categoryMap :=
        if category ≠ "" then mapSet kw category kf.categoryMap else kf.categoryMap }

/-- `AddKeywords` (filter.go 40-44). -/
def AddKeywords (kf : KeywordFilter) (keywords : List GoStr) (category : String) :
    KeywordFilter :=
  keywords.foldl (fun f k => AddKeyword f k category) kf

/-- `AddToBlacklist` (filter.go 47-55). -/
def AddToBlacklist (kf : KeywordFilter) (keyword : GoStr) : KeywordFilter :=
  let kw := toLowerStr keyword
  if containsBlacklistKeyword kf kw then kf
  else { kf with blacklist := kf.blacklist ++ [kw] }

/-- `AddBlacklist` (filter.go 58-62). -/
def AddBlacklist (kf : KeywordFilter) (keywords : List GoStr) : KeywordFilter :=
  keywords.foldl (fun f k => AddToBlacklist f k) kf

/-- `RemoveKeyword` (filter.go 65-77): drop the first occurrence of the
lowered keyword and its category entry; no-op when absent. -/
def RemoveKeyword (kf : KeywordFilter) (keyword : GoStr) : KeywordFilter :=
  let kw := toLowerStr keyword
  if containsKeyword kf kw then
    { kf with keywords := kf.keywords.erase kw, categoryMap := mapDel kw kf.categoryMap }
  else kf

/-- `GetCategory` (filter.go 134-142): the mapped category or `""`. -/
def GetCategory (kf : KeywordFilter) (keyword : GoStr) : String :=
  match mapGet kf.categoryMap (toLowerStr keyword) with
  | some c => c
  | none => ""

/-- `MatchContent` (filter.go 145-170): empty content never matches; then
blacklist substrings veto; then the first keyword substring wins. -/
def MatchContent (kf : KeywordFilter) (content : GoStr) : Bool × GoStr :=
  if content = [] then (false, [])
  else
    let lowerContent := toLowerStr content
    if kf.blacklist.any (fun b => goContains lowerContent b) then (false, [])
    else
      match kf.keywords.find? (fun k => goContains lowerContent k) with
      | some k => (true, k)
      | none => (false, [])

theorem find?_split {α : Type} {p : α → Bool} {l : List α} {a : α}
    (h : l.find? p = some a) :
    p a = true ∧ ∃ pre post, l = pre ++ a :: post ∧ ∀ x ∈ pre, p x = false := by
  induction l with
  | nil => simp [List.find?] at h
  | cons b t ih =>
    by_cases hb : p b = true
    · rw [List.find?_cons_of_pos _ hb] at h
      injection h with h
      subst h
      exact ⟨hb, [], t, rfl, by simp⟩
    · rw [List.find?_cons_of_neg _ hb] at h
      obtain ⟨hpa, pre, post, hsplit, hpre⟩ := ih h
      refine ⟨hpa, b :: pre, post, by rw [hsplit]; rfl, ?_⟩
      intro x hx
      rcases List.mem_cons.mp hx with rfl | hx
      · simpa using hb
      · exact hpre x hx

/-- The filter state reached by adding the empty string as a keyword to a
fresh filter. -/
def kfEmptyKeyword : KeywordFilter := AddKeyword NewKeywordFilter [] ""

/-- C3, counterexample. For the empty content string the claimed
characterisation fails: the filter holding the empty keyword has a keyword
occurring in `lower("")` and nothing blacklisted, yet `MatchContent` returns
`(false, "")` because of its empty-content early return. -/
theorem C3_counterexample :
    ¬ ((MatchContent kfEmptyKeyword []).1 = true ↔
      (∃ k ∈ kfEmptyKeyword.keywords, k <:+: toLowerStr [])
      ∧ ∀ b ∈ kfEmptyKeyword.blacklist, ¬ b <:+: toLowerStr []) := by
  intro h
  have hmem : ([] : GoStr) ∈ kfEmptyKeyword.keywords := by decide
  have htrue : (MatchContent kfEmptyKeyword []).1 = true :=
    h.mpr ⟨⟨[], hmem, ⟨[], [], rfl⟩⟩, by decide⟩
  have hfalse : (MatchContent kfEmptyKeyword []).1 = false := rfl
  rw [hfalse] at htrue
  exact Bool.false_ne_true htrue

/-- C3 (amended). For every non-empty content string, `MatchContent` returns
`true` iff some keyword occurs as a substring of the lowercased content and no
blacklist entry does (the blacklist is consulted first); on success the
returned keyword is the first occurring keyword in list order; on failure the
returned keyword is empty. For empty content it returns `(false, "")`
unconditionally, whatever the filter holds. -/
theorem C3_match_content :
    (∀ (kf : KeywordFilter) (s : GoStr), s ≠ [] →
      ((MatchContent kf s).1 = true ↔
        (∃ k ∈ kf.keywords, k <:+: toLowerStr s)
        ∧ ∀ b ∈ kf.blacklist, ¬ b <:+: toLowerStr s)
      ∧ ((MatchContent kf s).1 = true →
          ∃ pre post, kf.keywords = pre ++ (MatchContent kf s).2 :: post
            ∧ (MatchContent kf s).2 <:+: toLowerStr s
            ∧ ∀ k ∈ pre, ¬ k <:+: toLowerStr s)
      ∧ ((MatchContent kf s).1 = false → (MatchContent kf s).2 = []))
    ∧ ∀ kf : KeywordFilter, MatchContent kf [] = (false, []) := by
  constructor
  · intro kf s hs
    by_cases hbl : kf.blacklist.any (fun b => goContains (toLowerStr s) b) = true
    · have hM : MatchContent kf s = (false, []) := by
        simp only [MatchContent, if_neg hs, hbl, if_true]
      rcases List.any_eq_true.mp hbl with ⟨b, hbmem, hbc⟩
      refine ⟨?_, ?_, ?_⟩
      · rw [hM]
        apply iff_of_false
        · exact fun h => Bool.false_ne_true h
        · rintro ⟨_, hnone⟩
          exact hnone b hbmem ((goContains_iff _ _).mp hbc)
      · rw [hM]
        intro h
        exact (Bool.false_ne_true h).elim
      · rw [hM]
        intro _
        rfl
    · have hbl' : kf.blacklist.any (fun b => goContains (toLowerStr s) b) = false := by
        simpa using hbl
      have hnobl : ∀ b ∈ kf.blacklist, ¬ b <:+: toLowerStr s := by
        intro b hb hinf
        have h2 := List.any_eq_true.mpr ⟨b, hb, (goContains_iff _ _).mpr hinf⟩
        rw [hbl'] at h2
        exact Bool.false_ne_true h2
      cases hf : kf.keywords.find? (fun k => goContains (toLowerStr s) k) with
      | some k =>
        have hM : MatchContent kf s = (true, k) := by
          simp only [MatchContent, if_neg hs, hbl', Bool.false_eq_true, if_false, hf]
        obtain ⟨hk, pre, post, hsplit, hpre⟩ := find?_split hf
        refine ⟨?_, ?_, ?_⟩
        · rw [hM]
          apply iff_of_true rfl
          exact ⟨⟨k, by rw [hsplit]; simp, (goContains_iff _ _).mp hk⟩, hnobl⟩
        · rw [hM]
          intro _
          refine ⟨pre, post, hsplit, (goContains_iff _ _).mp hk, ?_⟩
          intro x hx hinf
          have h3 := (goContains_iff (toLowerStr s) x).mpr hinf
          rw [hpre x hx] at h3
          exact Bool.false_ne_true h3
        · rw [hM]
          intro h
          exact Bool.noConfusion h
      | none =>
        have hM : MatchContent kf s = (false, []) := by
          simp only [MatchContent, if_neg hs, hbl', Bool.false_eq_true, if_false, hf]
        refine ⟨?_, ?_, ?_⟩
        · rw [hM]
          apply iff_of_false
          · exact fun h => Bool.false_ne_true h
          · rintro ⟨⟨k, hkmem, hkinf⟩, _⟩
            exact List.find?_eq_none.mp hf k hkmem ((goContains_iff _ _).mpr hkinf)
        · rw [hM]
          intro h
          exact (Bool.false_ne_true h).elim
        · rw [hM]
          intro _
          rfl
  · intro kf
    rfl

/-- The keyword-list invariant of C9: every entry lowercase, no duplicates. -/
def FilterInv (kf : KeywordFilter) : Prop :=
  (∀ k ∈ kf.keywords, toLowerStr k = k) ∧ kf.keywords.Nodup

theorem AddKeyword_inv {kf : KeywordFilter} (k : GoStr) (c : String)
    (h : FilterInv kf) : FilterInv (AddKeyword kf k c) := by
  by_cases hc : containsKeyword kf (toLowerStr k) = true
  · rw [AddKeyword]
    simp only [hc, if_true]
    exact h
  · have hc' : containsKeyword kf (toLowerStr k) = false := by simpa using hc
    have hnot : toLowerStr k ∉ kf.keywords := by
      intro hmem
      have h2 : containsKeyword kf (toLowerStr k) = true :=
        List.any_eq_true.mpr ⟨toLowerStr k, hmem, beq_self_eq_true _⟩
      rw [hc'] at h2
      exact Bool.false_ne_true h2
    rw [AddKeyword]
    simp only [hc', Bool.false_eq_true, if_false]
    constructor
    · intro x hx
      rcases List.mem_append.mp hx with hx | hx
      · exact h.1 x hx
      · rw [List.mem_singleton.mp hx]
        exact toLowerStr_idem k
    · refine List.Nodup.append h.2 (List.nodup_singleton _) ?_
      intro a ha ha'
      rw [List.mem_singleton.mp ha'] at ha
      exact hnot ha

theorem AddKeywords_inv {kf : KeywordFilter} (ks : List GoStr) (c : String)
    (h : FilterInv kf) : FilterInv (AddKeywords kf ks c) := by
  induction ks generalizing kf with
  | nil => exact h
  | cons k t ih => exact ih (AddKeyword_inv k c h)

theorem RemoveKeyword_inv {kf : KeywordFilter} (k : GoStr)
    (h : FilterInv kf) : FilterInv (RemoveKeyword kf k) := by
  rw [RemoveKeyword]
  split
  · constructor
    · intro x hx
      exact h.1 x (List.mem_of_mem_erase hx)
    · exact List.Nodup.erase _ h.2
  · exact h

theorem AddKeyword_of_present {kf : KeywordFilter} {k : GoStr} (c : String)
    (h : containsKeyword kf (toLowerStr k) = true) : AddKeyword kf k c = kf := by
  rw [AddKeyword]
  simp only [h, if_true]

/-- C9. The keyword list stays lowercase and duplicate-free across
`AddKeyword`, `AddKeywords` and `RemoveKeyword`; and `AddKeyword` of a
keyword already present after lowercasing returns the filter unchanged —
keyword list and category map alike, the category argument ignored. -/
theorem C9_filter_invariants :
    (∀ (kf : KeywordFilter) (k : GoStr) (c : String), FilterInv kf →
      FilterInv (AddKeyword kf k c))
    ∧ (∀ (kf : KeywordFilter) (ks : List GoStr) (c : String), FilterInv kf →
      FilterInv (AddKeywords kf ks c))
    ∧ (∀ (kf : KeywordFilter) (k : GoStr), FilterInv kf →
      FilterInv (RemoveKeyword kf k))
    ∧ (∀ (kf : KeywordFilter) (k : GoStr) (c : String),
      containsKeyword kf (toLowerStr k) = true → AddKeyword kf k c = kf) :=
  ⟨fun _ k c h => AddKeyword_inv k c h,
   fun _ ks c h => AddKeywords_inv ks c h,
   fun _ k h => RemoveKeyword_inv k h,
   fun _ _ c h => AddKeyword_of_present c h⟩

/-! ## Automatic classifier (`categorizeContent`, part_000 lines 570-646).
Category names are the source's Chinese string constants. The Go keyword
table is a `map[string][]string` iterated with `range`; it is modelled in
source order — the claims here only concern names no table entry matches,
where the order cannot matter. -/

def catMovie : String := "电影"
def catVideo : String := "视频"
def catMusic : String := "音乐"
def catImage : String := "图片"
def catDoc : String := "文档"
def catArchive : String := "压缩包"
def catTV : String := "电视剧"
def catGame : String := "游戏"
def catSoftware : String := "软件"
def catAnime : String := "动漫"
def catEbook : String := "电子书"
def catCollection : String := "合集"
def catOther : String := "其他"
def catUnknown : String := "未知"

def videoExtensions : List GoStr :=
  [gls ".mp4", gls ".mkv", gls ".avi", gls ".mov", gls ".wmv", gls ".flv",
    gls ".ts", gls ".m4v", gls ".3gp"]

def audioExtensions : List GoStr :=
  [gls ".mp3", gls ".flac", gls ".aac", gls ".wav", gls ".wma", gls ".m4a", gls ".ogg"]

def imageExtensions : List GoStr :=
  [gls ".jpg", gls ".jpeg", gls ".png", gls ".gif", gls ".bmp", gls ".tiff"]

def docExtensions : List GoStr :=
  [gls ".pdf", gls ".doc", gls ".docx", gls ".xls", gls ".xlsx", gls ".ppt",
    gls ".pptx", gls ".txt", gls ".epub"]

def archiveExtensions : List GoStr :=
  [gls ".zip", gls ".rar", gls ".7z", gls ".tar", gls ".gz", gls ".iso"]

def categoryKeywords : List (String × List GoStr) :=
  [(catMovie, [gls "movie", gls "film", gls "bluray", gls "bdrip", gls "dvdrip",
      gls "1080p", gls "720p", gls "4k"]),
   (catTV, [gls "tv", gls "series", gls "season", gls "episode", gls "s01",
      gls "s02", gls "e01", gls "e02"]),
   (catMusic, [gls "album", gls "discography", gls "soundtrack", gls "ost",
      gls "music"]),
   (catGame, [gls "game", gls "xbox", gls "ps4", gls "ps5", gls "nintendo",
      gls "switch"]),
   (catSoftware, [gls "software", gls "app", gls "windows", gls "macos",
      gls "linux"]),
   (catAnime, [gls "anime", gls "cartoon", gls "animation"]),
   (catEbook, [gls "ebook", gls "books", gls "novel", gls "comics", gls "manga"])]

/-- `categorizeContent`: extension suffix tables, then keyword tables, then
the file-count/size heuristics. -/
def categorizeContent (name : GoStr) (fileCount : Nat) (size : Int) : String :=
  let lowerName := toLowerStr name
  if videoExtensions.any (fun ext => ext.isSuffixOf lowerName) then
    if size > 1024 * 1024 * 1024 then catMovie else catVideo
  else if audioExtensions.any (fun ext => ext.isSuffixOf lowerName) then catMusic
  else if imageExtensions.any (fun ext => ext.isSuffixOf lowerName) then catImage
  else if docExtensions.any (fun ext => ext.isSuffixOf lowerName) then catDoc
  else if archiveExtensions.any (fun ext => ext.isSuffixOf lowerName) then catArchive
  else
    match categoryKeywords.find? (fun p => p.2.any (fun w => goContains lowerName w)) with
    | some p => p.1
    | none =>
      if fileCount > 50 ∧ size > 10 * 1024 * 1024 * 1024 then catCollection
      else if size > 4 * 1024 * 1024 * 1024 then catMovie
      else if fileCount > 10 then catOther
      else catUnknown

/-- C7, counterexample. `"zzzz"` with 20 files and size 0 matches no suffix
table and no keyword table, is neither a Collection nor a Movie by the
size/count tests, yet the classifier returns `其他` (Other), not `未知`
(Unknown) as the claim requires. -/
theorem C7_counterexample :
    categorizeContent (gls "zzzz") 20 0 = catOther
    ∧ catOther ≠ catUnknown
    ∧ ¬ (20 > 50 ∧ (0 : Int) > 10 * 1024 * 1024 * 1024)
    ∧ ¬ ((0 : Int) > 4 * 1024 * 1024 * 1024)
    ∧ (∀ ext ∈ videoExtensions ++ audioExtensions ++ imageExtensions
        ++ docExtensions ++ archiveExtensions,
        ext.isSuffixOf (toLowerStr (gls "zzzz")) = false)
    ∧ (∀ p ∈ categoryKeywords, ∀ w ∈ p.2,
        goContains (toLowerStr (gls "zzzz")) w = false) := by
  decide

/-- C7 (amended). When the lowercased name matches no extension suffix table
and no keyword table, the classifier returns Collection iff more than 50
files and more than 10 GiB, else Movie iff more than 4 GiB, else Other iff
more than 10 files, and Unknown otherwise. -/
theorem C7_classifier_fallback (name : GoStr) (fileCount : Nat) (size : Int)
    (hext : ∀ ext ∈ videoExtensions ++ audioExtensions ++ imageExtensions
      ++ docExtensions ++ archiveExtensions,
      ext.isSuffixOf (toLowerStr name) = false)
    (hkw : ∀ p ∈ categoryKeywords, ∀ w ∈ p.2,
      goContains (toLowerStr name) w = false) :
    categorizeContent name fileCount size =
      if fileCount > 50 ∧ size > 10 * 1024 * 1024 * 1024 then catCollection
      else if size > 4 * 1024 * 1024 * 1024 then catMovie
      else if fileCount > 10 then catOther
      else catUnknown := by
  have hany : ∀ t : List GoStr,
      (∀ ext ∈ t, ext.isSuffixOf (toLowerStr name) = false) →
      t.any (fun ext => ext.isSuffixOf (toLowerStr name)) = false := by
    intro t ht
    rw [List.any_eq_false]
    intro x hx
    simp [ht x hx]
  have hva : ∀ ext ∈ videoExtensions, ext.isSuffixOf (toLowerStr name) = false :=
    fun e he => hext e (by simp [he])
  have haa : ∀ ext ∈ audioExtensions, ext.isSuffixOf (toLowerStr name) = false :=
    fun e he => hext e (by simp [he])
  have hia : ∀ ext ∈ imageExtensions, ext.isSuffixOf (toLowerStr name) = false :=
    fun e he => hext e (by simp [he])
  have hda : ∀ ext ∈ docExtensions, ext.isSuffixOf (toLowerStr name) = false :=
    fun e he => hext e (by simp [he])
  have haz : ∀ ext ∈ archiveExtensions, ext.isSuffixOf (toLowerStr name) = false :=
    fun e he => hext e (by simp [he])
  have hfind : categoryKeywords.find?
      (fun p => p.2.any (fun w => goContains (toLowerStr name) w)) = none := by
    rw [List.find?_eq_none]
    intro p hp
    simp only [Bool.not_eq_true]
    rw [List.any_eq_false]
    intro w hw
    simp [hkw p hp w hw]
  rw [categorizeContent]
  simp only [hany _ hva, hany _ haa, hany _ hia, hany _ hda, hany _ haz,
    Bool.false_eq_true, if_false, hfind]

/-- C7 witness: a name matching no table, 60 files, 11 GiB. -/
theorem C7_classifier_fallback_witness :
    categorizeContent (gls "zzzz") 60 11811160064 =
      (if 60 > 50 ∧ (11811160064 : Int) > 10 * 1024 * 1024 * 1024 then catCollection
       else if (11811160064 : Int) > 4 * 1024 * 1024 * 1024 then catMovie
       else if 60 > 10 then catOther
       else catUnknown) :=
  C7_classifier_fallback (gls "zzzz") 60 11811160064 (by decide) (by decide)

/-! ## Metadata conversion and ingest (`convertToTorrentMetadata`,
`convertMetadataToTorrent`, `processMetadata`).

`time.Time` is an `Int` of seconds since Go's zero time instant (year 1):
the zero `time.Time` is 0 (`IsZero` ⟺ `= 0`) and `time.Unix(c, 0)` is
`62135596800 + c` (the Unix epoch offset from year 1). The decoded metadata
(`map[string]interface{}` from `dht.Decode`) is a `BVal` dictionary; the
source's separate `int64`/`int` type assertions collapse into the one `.int`
constructor. -/

structure TorrentFile where
  Length : Int
  Path : List GoStr

structure TorrentMetadata where
  InfoHash : GoStr
  Name : GoStr
  Length : Int
  Files : List TorrentFile
  PieceLength : Int
  Pieces : GoStr
  Private : Int
  Announce : GoStr
  Comment : GoStr
  Creation : Int

/-- Seconds-from-year-1 instant of `time.Unix(sec, 0)`. -/
def timeUnix (sec : Int) : Int := 62135596800 + sec

/-- Go map lookup on a decoded bencode dictionary. -/
def dLookup (d : List BPair) (k : GoStr) : Option BVal :=
  (d.find? (fun p => p.1 == k)).map Prod.snd

/-- Type assertion `.(string)`. -/
def asStr : Option BVal → Option GoStr
  | some (.str s) => some s
  | _ => none

/-- Type assertions `.(int64)` / `.(int)` (one integer kind here). -/
def asInt : Option BVal → Option Int
  | some (.int n) => some n
  | _ => none

/-- Type assertion `.([]interface{})`. -/
def asList : Option BVal → Option (List BVal)
  | some (.list l) => some l
  | _ => none

/-- Type assertion `.(map[string]interface{})`. -/
def asDict : Option BVal → Option (List BPair)
  | some (.dict d) => some d
  | _ => none

/-- The `path` loop of the files branch: keep the string entries. -/
def parsePaths : List BVal → List GoStr
  | [] => []
  | .str s :: rest => s :: parsePaths rest
  | _ :: rest => parsePaths rest

/-- The `files` loop of `convertToTorrentMetadata` (lines 485-510): for each
dictionary entry, read its length (0 when absent) and path; skip non-dict
entries; also accumulate `totalLength`. -/
def parseFiles : List BVal → List TorrentFile × Int
  | [] => ([], 0)
  | f :: rest =>
    match f with
    | .dict fd =>
      let len := (asInt (dLookup fd (gls "length"))).getD 0
      let path := (asList (dLookup fd (gls "path"))).elim [] parsePaths
      let r := parseFiles rest
      (⟨len, path⟩ :: r.1, len + r.2)
    | _ => parseFiles rest

/-- `convertToTorrentMetadata` (part_000 lines 423-516): requires a string
`name` (else it errors), reads the optional fields, and fills `Length`/`Files`
from the single-file `length` or the multi-file `files` key. -/
def convertToTorrentMetadata (infoHash : GoStr) (info : List BPair) :
    Option TorrentMetadata :=
  match asStr (dLookup info (gls "name")) with
  | none => none
  | some name =>
    let comment := (asStr (dLookup info (gls "comment"))).getD []
    let creation :=
      match asInt (dLookup info (gls "creation date")) with
      | some c => timeUnix c
      | none => 0
    let announce := (asStr (dLookup info (gls "announce"))).getD []
    let pieceLength := (asInt (dLookup info (gls "piece length"))).getD 0
    let priv := (asInt (dLookup info (gls "private"))).getD 0
    match asInt (dLookup info (gls "length")) with
    | some l =>
      some
        { InfoHash := infoHash, Name := name, Length := l, Files := [],
          PieceLength := pieceLength, Pieces := [], Private := priv,
          Announce := announce, Comment := comment, Creation := creation }
    | none =>
      match asList (dLookup info (gls "files")) with
      | some files =>
        let r := parseFiles files
        some
          { InfoHash := infoHash, Name := name, Length := r.2, Files := r.1,
            PieceLength := pieceLength, Pieces := [], Private := priv,
            Announce := announce, Comment := comment, Creation := creation }
      | none =>
        some
          { InfoHash := infoHash, Name := name, Length := 0, Files := [],
            PieceLength := pieceLength, Pieces := [], Private := priv,
            Announce := announce, Comment := comment, Creation := creation }

/-- The stored torrent record (`models.Torrent`) as the ingest pipeline fills
it. The magnet-URI field is omitted: no claim concerns it, it is the
`magnet:?xt=urn:btih:` string with URL-escaped tracker and name appended. -/
structure Torrent where
  Title : GoStr
  InfoHash : GoStr
  Size : Int
  FileCount : Nat
  Category : String
  UploadDate : Int
  Seeds : Nat
  Peers : Nat
  Downloads : Nat
  Description : GoStr
  Source : String
  Heat : Nat

/-- `convertMetadataToTorrent` (part_000 lines 519-567); `now` is the
`time.Now()` the zero-date fallback reads. -/
def convertMetadataToTorrent (metadata : TorrentMetadata) (category : String)
    (now : Int) : Torrent :=
  let fileCount := if metadata.Files.length = 0 then 1 else metadata.Files.length
  let category' :=
    if category = "" then categorizeContent metadata.Name fileCount metadata.Length
    else category
  let uploadDate := if metadata.Creation = 0 then now else metadata.Creation
  { Title := metadata.Name, InfoHash := hexEncode metadata.InfoHash,
    Size := metadata.Length, FileCount := fileCount, Category := category',
    UploadDate := uploadDate, Seeds := 0, Peers := 0, Downloads := 0,
    Description := metadata.Comment, Source := "DHT", Heat := 1 }

/-- What one pass of `processMetadata`'s loop does with a converted item. -/
inductive IngestAction where
  | skip : IngestAction
  | incrementHeat : GoStr → IngestAction
  | insert : Torrent → IngestAction

/-- One iteration of `processMetadata` (part_000 lines 345-420) after
`dht.Decode` and `convertToTorrentMetadata` produced `m` (their failures
`continue` with no action, as do store errors): skip empty names, bump heat
for known info-hashes, and insert filter matches. The store is modelled as
the list of raw info-hashes it holds. -/
def processOne (store : List GoStr) (kf : KeywordFilter) (m : TorrentMetadata)
    (now : Int) : IngestAction :=
  if m.Name = [] then .skip
  else if m.InfoHash ∈ store then .incrementHeat m.InfoHash
  else
    let r := MatchContent kf m.Name
    if r.1 then
      let category0 := GetCategory kf r.2
      let category :=
        if category0 = "" then categorizeContent m.Name m.Files.length m.Length
        else category0
      .insert (convertMetadataToTorrent m category now)
    else .skip

theorem parseFiles_sum (fs : List BVal) :
    (parseFiles fs).2 = ((parseFiles fs).1.map TorrentFile.Length).sum := by
  induction fs with
  | nil => rfl
  | cons f rest ih =>
    cases f with
    | dict fd => simp [parseFiles, ih]
    | str s => simpa [parseFiles] using ih
    | int n => simpa [parseFiles] using ih
    | list l => simpa [parseFiles] using ih

/-- C10. A multi-file conversion's total `Length` is the sum of its parsed
files' lengths; the stored `FileCount` is the file count when files exist,
1 for single-file metadata, and never 0. -/
theorem C10_length_and_filecount :
    (∀ (ih : GoStr) (info : List BPair) (m : TorrentMetadata),
      convertToTorrentMetadata ih info = some m → m.Files ≠ [] →
      m.Length = (m.Files.map TorrentFile.Length).sum)
    ∧ (∀ (m : TorrentMetadata) (cat : String) (now : Int), m.Files ≠ [] →
      (convertMetadataToTorrent m cat now).FileCount = m.Files.length)
    ∧ (∀ (m : TorrentMetadata) (cat : String) (now : Int), m.Files = [] →
      (convertMetadataToTorrent m cat now).FileCount = 1)
    ∧ ∀ (m : TorrentMetadata) (cat : String) (now : Int),
      (convertMetadataToTorrent m cat now).FileCount ≠ 0 := by
  refine ⟨?_, ?_, ?_, ?_⟩
  · intro ih info m hconv hne
    rcases hn : asStr (dLookup info (gls "name")) with _ | name
    · rw [convertToTorrentMetadata, hn] at hconv
      exact Option.noConfusion hconv
    · rcases hl : asInt (dLookup info (gls "length")) with _ | l
      · rcases hf : asList (dLookup info (gls "files")) with _ | files
        · rw [convertToTorrentMetadata, hn] at hconv
          simp only [hl, hf] at hconv
          obtain rfl := Option.some.inj hconv
          exact absurd rfl hne
        · rw [convertToTorrentMetadata, hn] at hconv
          simp only [hl, hf] at hconv
          obtain rfl := Option.some.inj hconv
          exact parseFiles_sum files
      · rw [convertToTorrentMetadata, hn] at hconv
        simp only [hl] at hconv
        obtain rfl := Option.some.inj hconv
        exact absurd rfl hne
  · intro m cat now hne
    have h0 : ¬ m.Files.length = 0 := by
      simpa [List.length_eq_zero] using hne
    simp [convertMetadataToTorrent, h0]
  · intro m cat now he
    simp [convertMetadataToTorrent, he]
  · intro m cat now
    by_cases h0 : m.Files.length = 0 <;> simp [convertMetadataToTorrent, h0]

/-- A filter holding only the keyword `a`. -/
def kfA : KeywordFilter := AddKeyword NewKeywordFilter (gls "a") ""

/-- A converted metadata item: name `a`, single-file, zero creation date. -/
def sampleMeta : TorrentMetadata :=
  ⟨gls "h", gls "a", 0, [], 0, [], 0, [], [], 0⟩

/-- The decoded info dictionary of a torrent whose `creation date` field is
present and equal to 0. -/
def creationZeroInfo : List BPair :=
  [(gls "name", .str (gls "a")), (gls "creation date", .int 0)]

/-- C4, counterexample. For an item whose `creation date` field is 0, the
parsed creation time is `time.Unix(0,0)` — the Unix epoch, 62135596800
seconds after Go's zero time — which is not the zero `time.Time`, so the
inserted record keeps the epoch as `uploadDate` instead of the current time
(1735689600 here) that the claim requires for a zero creation date. -/
theorem C4_counterexample :
    ∃ (m : TorrentMetadata) (t : Torrent),
      convertToTorrentMetadata (gls "h") creationZeroInfo = some m
      ∧ processOne [] kfA m 1735689600 = .insert t
      ∧ t.UploadDate = 62135596800
      ∧ ¬ t.UploadDate = 1735689600 := by
  refine ⟨_, _, rfl, rfl, rfl, by decide⟩

/-- C4 (amended). For a converted item with a non-empty name: when its
info-hash is already stored, the step is exactly a heat increment (no
insert); when it is new and the filter matches the name, the step inserts a
record with heat 1, source tag `DHT`, and `uploadDate` equal to the parsed
creation instant, the current time being used only when that instant is Go's
zero time — a `creation date` of 0 parses to the Unix epoch and is kept. -/
theorem C4_ingest_step (store : List GoStr) (kf : KeywordFilter)
    (m : TorrentMetadata) (now : Int) (hname : m.Name ≠ []) :
    (m.InfoHash ∈ store → processOne store kf m now = .incrementHeat m.InfoHash)
    ∧ (m.InfoHash ∉ store → (MatchContent kf m.Name).1 = true →
        ∃ t : Torrent, processOne store kf m now = .insert t
          ∧ t.Heat = 1 ∧ t.Source = "DHT"
          ∧ t.UploadDate = (if m.Creation = 0 then now else m.Creation)) := by
  constructor
  · intro hmem
    simp [processOne, hname, hmem]
  · intro hmem hmatch
    have hP : processOne store kf m now =
        .insert (convertMetadataToTorrent m
          (if GetCategory kf (MatchContent kf m.Name).2 = "" then
            categorizeContent m.Name m.Files.length m.Length
          else GetCategory kf (MatchContent kf m.Name).2) now) := by
      simp [processOne, hname, hmem, hmatch]
    exact ⟨_, hP, rfl, rfl, rfl⟩

/-- C4 witness: a known info-hash increments heat; a fresh matching one
inserts heat 1, source `DHT`, upload date `now`. -/
theorem C4_ingest_step_witness :
    (sampleMeta.InfoHash ∈ [gls "h"] →
      processOne [gls "h"] kfA sampleMeta 5 = .incrementHeat sampleMeta.InfoHash)
    ∧ (sampleMeta.InfoHash ∉ [gls "h"] →
        (MatchContent kfA sampleMeta.Name).1 = true →
        ∃ t : Torrent, processOne [gls "h"] kfA sampleMeta 5 = .insert t
          ∧ t.Heat = 1 ∧ t.Source = "DHT"
          ∧ t.UploadDate = (if sampleMeta.Creation = 0 then 5 else sampleMeta.Creation)) :=
  C4_ingest_step [gls "h"] kfA sampleMeta 5 (by decide)

/-! ## DHT engine (part_002): mode policy, `GetPeers`, the run-loop tick.

The routing table is modelled as the list of its node ids (20 raw bytes
each). `GetNeighbors` is not part of the repository's files (only its
callers are); it is modelled from the spec below. -/

inductive DhtMode where
  | standard : DhtMode
  | crawl : DhtMode
deriving DecidableEq

/-- `DHT.id(target)` (part_002 lines 495-500): the source id for outgoing
queries. In crawl mode with a non-empty target the Go code slices
`target[:15] + self[15:]`, which `take`/`drop` render exactly when both
strings hold at least 15 bytes (node ids and targets are 20 bytes; shorter
targets would make the Go slice panic). -/
def dhtId (mode : DhtMode) (selfId target : GoStr) : GoStr :=
  if mode = .standard ∨ target = [] then selfId
  else target.take 15 ++ selfId.drop 15

/-- C6. Outgoing queries carry the engine's own 20-byte id in standard mode
or when the target is empty; in crawl mode with a non-empty target they
carry the impersonated id: the target's first 15 bytes then the engine id's
last 5 bytes, a 20-byte id again. -/
theorem C6_impersonated_id (mode : DhtMode) (selfId target : GoStr)
    (hself : selfId.length = 20) :
    (mode = .standard ∨ target = [] → dhtId mode selfId target = selfId)
    ∧ (mode = .crawl → target ≠ [] → target.length = 20 →
        dhtId mode selfId target = target.take 15 ++ selfId.drop 15
        ∧ (target.take 15).length = 15
        ∧ (selfId.drop 15).length = 5
        ∧ (dhtId mode selfId target).length = 20) := by
  constructor
  · intro h
    rw [dhtId, if_pos h]
  · intro hmode hne htarget
    have hcond : ¬ (mode = DhtMode.standard ∨ target = []) := by
      rintro (h | h)
      · rw [hmode] at h
        exact DhtMode.noConfusion h
      · exact hne h
    have htk : (target.take 15).length = 15 := by
      rw [List.length_take, htarget]
      decide
    have hdp : (selfId.drop 15).length = 5 := by
      rw [List.length_drop, hself]
    refine ⟨by rw [dhtId, if_neg hcond], htk, hdp, ?_⟩
    rw [dhtId, if_neg hcond, List.length_append, htk, hdp]

/-- C6 witness: the own id is used in standard mode and for the empty target
in crawl mode; a concrete 20-byte target yields the impersonated 20-byte
id. -/
theorem C6_impersonated_id_witness :
    dhtId .standard (List.range 20) [] = List.range 20
    ∧ dhtId .crawl (List.range 20) [] = List.range 20
    ∧ (dhtId .crawl (List.range 20) ((List.range 20).map (fun i => i + 100))
        = ((List.range 20).map (fun i => i + 100)).take 15 ++ (List.range 20).drop 15
      ∧ (dhtId .crawl (List.range 20) ((List.range 20).map (fun i => i + 100))).length = 20) :=
  ⟨(C6_impersonated_id .standard (List.range 20) [] (by decide)).1 (Or.inl rfl),
   (C6_impersonated_id .crawl (List.range 20) [] (by decide)).1 (Or.inr rfl),
   ((C6_impersonated_id .crawl (List.range 20)
      ((List.range 20).map (fun i => i + 100)) (by decide)).2 rfl (by decide)
      (by decide)).1,
   ((C6_impersonated_id .crawl (List.range 20)
      ((List.range 20).map (fun i => i + 100)) (by decide)).2 rfl (by decide)
      (by decide)).2.2.2⟩

/-- Base-256 value of a byte string (big-endian), used to compare XOR
distances of equal-length ids. -/
def bytesToNat : List Nat → Nat
  | [] => 0
  | b :: t => b * 256 ^ t.length + bytesToNat t

/-- XOR distance between two node ids. -/
def xorDist (a b : GoStr) : Nat :=
  bytesToNat (List.zipWith (fun x y => x ^^^ y) a b)

def insertByDist (target x : GoStr) : List GoStr → List GoStr
  | [] => [x]
  | y :: ys =>
    if xorDist x target ≤ xorDist y target then x :: y :: ys
    else y :: insertByDist target x ys

def sortByDist (target : GoStr) : List GoStr → List GoStr
  | [] => []
  | x :: xs => insertByDist target x (sortByDist target xs)

/-- Modelled from the spec: `routingTable.GetNeighbors(target, n)` — the
routing-table trie walk is not among the repository's files — returns "the n
nodes with smallest XOR distance to target" (spec §4.C): the table sorted by
XOR distance to the target, truncated to n. -/
def GetNeighbors (table : List GoStr) (target : GoStr) (n : Nat) : List GoStr :=
  (sortByDist target table).take n

theorem insertByDist_perm (target x : GoStr) (l : List GoStr) :
    List.Perm (insertByDist target x l) (x :: l) := by
  induction l with
  | nil => rfl
  | cons y ys ih =>
    by_cases h : xorDist x target ≤ xorDist y target
    · simp [insertByDist, h]
    · simp only [insertByDist, if_neg h]
      exact (ih.cons y).trans (List.Perm.swap x y ys)

theorem sortByDist_perm (target : GoStr) (l : List GoStr) :
    List.Perm (sortByDist target l) l := by
  induction l with
  | nil => rfl
  | cons x xs ih => exact (insertByDist_perm target x (sortByDist target xs)).trans (ih.cons x)

/-- Asking for as many neighbours as the table holds returns the whole
table (in distance order). -/
theorem GetNeighbors_len_perm (table : List GoStr) (target : GoStr) :
    List.Perm (GetNeighbors table target table.length) table := by
  have hlen : (sortByDist target table).length = table.length :=
    (sortByDist_perm target table).length_eq
  rw [GetNeighbors, ← hlen, List.take_length]
  exact sortByDist_perm target table

/-- `hex.DecodeString` byte value of one ASCII hex digit. -/
def hexVal (c : Nat) : Option Nat :=
  if 48 ≤ c ∧ c ≤ 57 then some (c - 48)
  else if 97 ≤ c ∧ c ≤ 102 then some (c - 87)
  else if 65 ≤ c ∧ c ≤ 70 then some (c - 55)
  else none

/-- `hex.DecodeString`: fails on an odd length or a non-hex byte. -/
def hexDecode : GoStr → Option GoStr
  | [] => some []
  | [_] => none
  | a :: b :: rest =>
    match hexVal a, hexVal b, hexDecode rest with
    | some x, some y, some r => some ((16 * x + y) :: r)
    | _, _, _ => none

/-- The `DHT` fields `GetPeers` consults. -/
structure DhtState where
  Ready : Bool
  hasOnGetPeersResponse : Bool
  K : Nat
  routingTable : List GoStr

/-- What one `GetPeers` call does. -/
inductive GetPeersResult where
  | errNotReady : GetPeersResult
  | errCallbackNotSet : GetPeersResult
  | errHexDecode : GetPeersResult
  | queries : List GoStr → GetPeersResult

/-- `DHT.GetPeers` (part_002 lines 503-528): guard on readiness and the
`OnGetPeersResponse` callback, hex-decode a 40-character info-hash, then send
`get_peers` to `GetNeighbors(infoHash, routingTable.Len())`. -/
def GetPeers (dht : DhtState) (infoHash : GoStr) : GetPeersResult :=
  if dht.Ready = false then .errNotReady
  else if dht.hasOnGetPeersResponse = false then .errCallbackNotSet
  else if infoHash.length = 40 then
    match hexDecode infoHash with
    | none => .errHexDecode
    | some raw => .queries (GetNeighbors dht.routingTable raw dht.routingTable.length)
  else .queries (GetNeighbors dht.routingTable infoHash dht.routingTable.length)

/-- A ready crawl-style engine with `K = 8` and nine routing-table nodes. -/
def dht9 : DhtState :=
  ⟨true, true, 8, (List.range 9).map (fun i => i :: List.replicate 19 0)⟩

/-- C5, counterexample. With `K = 8` and nine nodes in the table, a
`GetPeers` on a raw 20-byte info-hash queries all nine nodes —
`routingTable.Len()` of them, not the `K` closest. -/
theorem C5_counterexample :
    ∃ ns : List GoStr, GetPeers dht9 (List.replicate 20 0) = .queries ns
      ∧ ns.length = 9 ∧ dht9.K = 8 ∧ dht9.routingTable.length = 9 := by
  refine ⟨_, rfl, by decide, rfl, by decide⟩

/-- C5 (amended). For a ready engine: `GetPeers` fails with the
configuration error iff `OnGetPeersResponse` is unset; with the callback set
it emits `get_peers` to `GetNeighbors(infoHash, routingTable.Len())` — every
node of the routing table, in XOR-distance order, not only the `K` closest —
after hex-decoding a 40-character info-hash (a malformed one fails with the
decode error instead). -/
theorem C5_get_peers (dht : DhtState) (infoHash : GoStr)
    (hready : dht.Ready = true) :
    (GetPeers dht infoHash = .errCallbackNotSet ↔
      dht.hasOnGetPeersResponse = false)
    ∧ (dht.hasOnGetPeersResponse = true → infoHash.length ≠ 40 →
        GetPeers dht infoHash =
          .queries (GetNeighbors dht.routingTable infoHash dht.routingTable.length))
    ∧ (dht.hasOnGetPeersResponse = true → ∀ raw, infoHash.length = 40 →
        hexDecode infoHash = some raw →
        GetPeers dht infoHash =
          .queries (GetNeighbors dht.routingTable raw dht.routingTable.length))
    ∧ (dht.hasOnGetPeersResponse = true → infoHash.length = 40 →
        hexDecode infoHash = none → GetPeers dht infoHash = .errHexDecode)
    ∧ ∀ (table : List GoStr) (target : GoStr),
        List.Perm (GetNeighbors table target table.length) table := by
  have hnr : ¬ dht.Ready = false := by rw [hready]; exact Bool.noConfusion
  refine ⟨?_, ?_, ?_, ?_, GetNeighbors_len_perm⟩
  · constructor
    · intro h
      by_cases hcb : dht.hasOnGetPeersResponse = false
      · exact hcb
      · have hcb' : ¬ dht.hasOnGetPeersResponse = false := hcb
        rw [GetPeers, if_neg hnr, if_neg hcb'] at h
        by_cases hlen : infoHash.length = 40
        · rw [if_pos hlen] at h
          cases hdec : hexDecode infoHash with
          | none => rw [hdec] at h; exact GetPeersResult.noConfusion h
          | some raw => rw [hdec] at h; exact GetPeersResult.noConfusion h
        · rw [if_neg hlen] at h
          exact GetPeersResult.noConfusion h
    · intro h
      rw [GetPeers, if_neg hnr, if_pos h]
  · intro hcb hlen
    have hcb' : ¬ dht.hasOnGetPeersResponse = false := by
      rw [hcb]; exact Bool.noConfusion
    rw [GetPeers, if_neg hnr, if_neg hcb', if_neg hlen]
  · intro hcb raw hlen hdec
    have hcb' : ¬ dht.hasOnGetPeersResponse = false := by
      rw [hcb]; exact Bool.noConfusion
    rw [GetPeers, if_neg hnr, if_neg hcb', if_pos hlen, hdec]
  · intro hcb hlen hdec
    have hcb' : ¬ dht.hasOnGetPeersResponse = false := by
      rw [hcb]; exact Bool.noConfusion
    rw [GetPeers, if_neg hnr, if_neg hcb', if_pos hlen, hdec]

/-- C5 witness: a ready two-node engine answers a raw info-hash by querying
both nodes. -/
theorem C5_get_peers_witness :
    (GetPeers ⟨true, true, 8, [[1], [2]]⟩ [7] = .errCallbackNotSet ↔
      (⟨true, true, 8, [[1], [2]]⟩ : DhtState).hasOnGetPeersResponse = false)
    ∧ ((⟨true, true, 8, [[1], [2]]⟩ : DhtState).hasOnGetPeersResponse = true →
        ([7] : GoStr).length ≠ 40 →
        GetPeers ⟨true, true, 8, [[1], [2]]⟩ [7] =
          .queries (GetNeighbors [[1], [2]] [7] ([[1], [2]] : List GoStr).length))
    ∧ ((⟨true, true, 8, [[1], [2]]⟩ : DhtState).hasOnGetPeersResponse = true →
        ∀ raw, ([7] : GoStr).length = 40 → hexDecode [7] = some raw →
        GetPeers ⟨true, true, 8, [[1], [2]]⟩ [7] =
          .queries (GetNeighbors [[1], [2]] raw ([[1], [2]] : List GoStr).length))
    ∧ ((⟨true, true, 8, [[1], [2]]⟩ : DhtState).hasOnGetPeersResponse = true →
        ([7] : GoStr).length = 40 → hexDecode [7] = none →
        GetPeers ⟨true, true, 8, [[1], [2]]⟩ [7] = .errHexDecode)
    ∧ ∀ (table : List GoStr) (target : GoStr),
        List.Perm (GetNeighbors table target table.length) table :=
  C5_get_peers ⟨true, true, 8, [[1], [2]]⟩ [7] rfl

/-- What one `CheckKBucketPeriod` tick of `DHT.Run`'s select loop does.
`rejoin ns` stands for `dht.join()`, which sends `find_node` to each of the
prime (bootstrap) nodes `ns`. -/
inductive TickAction where
  | rejoin : List String → TickAction
  | fresh : TickAction
  | nothing : TickAction

/-- The `case <-tick` branch of `DHT.Run` (part_002 lines 564-569): if the
routing table is empty, re-join through the prime nodes; otherwise refresh
the routing table only when the transaction manager holds no pending
transactions. -/
def tickAction (primeNodes : List String) (routingTableLen transactionsLen : Nat) :
    TickAction :=
  if routingTableLen = 0 then .rejoin primeNodes
  else if transactionsLen = 0 then .fresh
  else .nothing

/-- C8, counterexample. With one node in the routing table and one pending
transaction, the tick neither re-joins nor calls `Fresh()` — the claim says a
non-empty table always leads to `routingTable.Fresh()`. -/
theorem C8_counterexample :
    tickAction [] 1 1 = .nothing ∧ TickAction.nothing ≠ TickAction.fresh :=
  ⟨rfl, fun h => TickAction.noConfusion h⟩

/-- C8 (amended). On every `CheckKBucketPeriod` tick: an empty routing table
re-joins via the prime nodes; a non-empty table triggers
`routingTable.Fresh()` only when the transaction manager is empty, and
nothing otherwise. -/
theorem C8_tick (primeNodes : List String) (rt tx : Nat) :
    (rt = 0 → tickAction primeNodes rt tx = .rejoin primeNodes)
    ∧ (rt ≠ 0 → tx = 0 → tickAction primeNodes rt tx = .fresh)
    ∧ (rt ≠ 0 → tx ≠ 0 → tickAction primeNodes rt tx = .nothing) := by
  refine ⟨?_, ?_, ?_⟩
  · intro h
    rw [tickAction, if_pos h]
  · intro h0 ht
    rw [tickAction, if_neg h0, if_pos ht]
  · intro h0 ht
    rw [tickAction, if_neg h0, if_neg ht]
